import Mathlib

/-!
Shallow embedding of the `const-siphash-rs` crate (files `src/lib.rs`, `src/sip.rs`).

Machine integers are modelled as `Nat` with explicit reduction modulo `2 ^ 64`
where the Rust `u64` operations wrap or truncate.  Byte slices `&[u8]` are
modelled as `List Nat` together with the side condition that every entry is
below 256.  `usize` is modelled as a 64-bit integer (the crate's behaviour on a
64-bit little-endian host).  The `while` loop in `Hasher::write` is modelled
with an explicit fuel argument that provably dominates the iteration count.
-/

namespace SipHash

def M64 : Nat := 2 ^ 64

/-- Truncation to 64 bits, the effect of Rust `u64` wrapping semantics. -/
def mask64 (x : Nat) : Nat := x % M64

/-- Rust `u64::wrapping_add`. -/
def wadd (a b : Nat) : Nat := mask64 (a + b)

/-- Rust `u64::rotate_left` for a 64-bit value. -/
def rotl64 (x n : Nat) : Nat := mask64 (x <<< n) ||| (x >>> (64 - n))

/-- The 256-bit working state of `sip.rs` (struct `State`), four 64-bit lanes.
The Rust struct stores the lanes in order `v0, v2, v1, v3`. -/
structure State where
  v0 : Nat
  v2 : Nat
  v1 : Nat
  v3 : Nat
deriving Repr, DecidableEq

/-- One SipRound, the body of the `compress!` macro in `sip.rs`. -/
def compress (s : State) : State :=
  let v0 := s.v0
  let v1 := s.v1
  let v2 := s.v2
  let v3 := s.v3
  let v0 := wadd v0 v1
  let v1 := rotl64 v1 13
  let v1 := v1 ^^^ v0
  let v0 := rotl64 v0 32
  let v2 := wadd v2 v3
  let v3 := rotl64 v3 16
  let v3 := v3 ^^^ v2
  let v0 := wadd v0 v3
  let v3 := rotl64 v3 21
  let v3 := v3 ^^^ v0
  let v2 := wadd v2 v1
  let v1 := rotl64 v1 17
  let v1 := v1 ^^^ v2
  let v2 := rotl64 v2 32
  { v0 := v0, v2 := v2, v1 := v1, v3 := v3 }

/-- Model of `const fn c_rounds<S: Sip>`: apply `compress!` `cr` times (the `while i < S::C_ROUNDS` loop). -/
def c_rounds (cr : Nat) (st : State) : State :=
  match cr with
  | 0 => st
  | n + 1 => c_rounds n (compress st)

/-- Model of `const fn d_rounds<S: Sip>`: apply `compress!` `dr` times (the `while i < S::D_ROUNDS` loop). -/
def d_rounds (dr : Nat) (st : State) : State :=
  match dr with
  | 0 => st
  | n + 1 => d_rounds n (compress st)

/-- Constant from `impl Sip for Sip13Rounds` in `lib.rs`. -/
def Sip13Rounds.C_ROUNDS : Nat := 1

/-- Constant from `impl Sip for Sip13Rounds` in `lib.rs`. -/
def Sip13Rounds.D_ROUNDS : Nat := 3

/-- Constant from `impl Sip for Sip24Rounds` in `lib.rs`. -/
def Sip24Rounds.C_ROUNDS : Nat := 2

/-- Constant from `impl Sip for Sip24Rounds` in `lib.rs`. -/
def Sip24Rounds.D_ROUNDS : Nat := 4

/-- The streaming engine `struct Hasher<S>` of `sip.rs`.  The round-count
parameter `S` is passed separately to the operations (as the `c` argument). -/
structure Hasher where
  k0 : Nat
  k1 : Nat
  length : Nat
  state : State
  tail : Nat
  ntail : Nat
deriving Repr, DecidableEq

/-- Model of `Hasher::reset` in `sip.rs` (note: it does not clear `tail`). -/
def Hasher.reset (h : Hasher) : Hasher :=
  { h with
    length := 0
    state :=
      { v0 := h.k0 ^^^ 0x736f6d6570736575
        v1 := h.k1 ^^^ 0x646f72616e646f6d
        v2 := h.k0 ^^^ 0x6c7967656e657261
        v3 := h.k1 ^^^ 0x7465646279746573 }
    ntail := 0 }

/-- Model of `Hasher::new_with_keys` in `sip.rs`. -/
def Hasher.new_with_keys (key0 key1 : Nat) : Hasher :=
  Hasher.reset
    { k0 := key0, k1 := key1, length := 0
      state := { v0 := 0, v1 := 0, v2 := 0, v3 := 0 }
      tail := 0, ntail := 0 }

/-- The `load_int_le!` macro: load `size` bytes at offset `i` little-endian.
Out-of-range accesses read 0 here; the checked variants below record the
bounds precondition the Rust macro demands. -/
def load_int_le (buf : List Nat) (i : Nat) : Nat → Nat
  | 0 => 0
  | size + 1 => buf.getD i 0 + 256 * load_int_le buf (i + 1) size

/-- Model of `const unsafe fn u8to64_le`: load `len < 8` bytes at `start` little-endian,
as a 4-byte, a 2-byte and a 1-byte load combined by shifts and ors. -/
def u8to64_le (buf : List Nat) (start len : Nat) : Nat :=
  let i : Nat := 0
  let out : Nat := 0
  let s1 : Nat × Nat :=
    if i + 3 < len then (load_int_le buf (start + i) 4, i + 4) else (out, i)
  let out := s1.1
  let i := s1.2
  let s2 : Nat × Nat :=
    if i + 1 < len then (out ||| (load_int_le buf (start + i) 2 <<< (i * 8)), i + 2)
    else (out, i)
  let out := s2.1
  let i := s2.2
  let s3 : Nat × Nat :=
    if i < len then (out ||| (buf.getD (start + i) 0 <<< (i * 8)), i + 1) else (out, i)
  s3.1

/-- Model of `Hasher::short_write::<T>` with `size = size_of::<T>()`; the caller passes
`x` zero-extended to 64 bits (and byte-swapped to little-endian on big-endian
hosts, which is the identity in this little-endian model). -/
def Hasher.short_write (c size : Nat) (h : Hasher) (x : Nat) : Hasher :=
  let h := { h with length := mask64 (h.length + size) }
  let needed := 8 - h.ntail
  let h := { h with tail := h.tail ||| mask64 (x <<< (8 * h.ntail)) }
  if size < needed then
    { h with ntail := h.ntail + size }
  else
    let st := { h.state with v3 := h.state.v3 ^^^ h.tail }
    let st := c_rounds c st
    let st := { st with v0 := st.v0 ^^^ h.tail }
    { h with
      state := st
      ntail := size - needed
      tail := if needed < 8 then x >>> (8 * needed) else 0 }

/-- Model of `Hasher::write_usize` (64-bit host, little-endian: `to_le` is the identity). -/
def Hasher.write_usize (c : Nat) (h : Hasher) (x : Nat) : Hasher :=
  h.short_write c 8 x

/-- Model of `Hasher::write_u8`. -/
def Hasher.write_u8 (c : Nat) (h : Hasher) (x : Nat) : Hasher :=
  h.short_write c 1 x

/-- Model of `Hasher::write_u16`. -/
def Hasher.write_u16 (c : Nat) (h : Hasher) (x : Nat) : Hasher :=
  h.short_write c 2 x

/-- Model of `Hasher::write_u32`. -/
def Hasher.write_u32 (c : Nat) (h : Hasher) (x : Nat) : Hasher :=
  h.short_write c 4 x

/-- Model of `Hasher::write_u64`. -/
def Hasher.write_u64 (c : Nat) (h : Hasher) (x : Nat) : Hasher :=
  h.short_write c 8 x

/-- The `while i < len - left` block loop of `Hasher::write`, with fuel.
Returns the updated state together with the final value of `i`. -/
def writeLoop (c : Nat) (msg : List Nat) (stop : Nat) :
    Nat → Nat → State → State × Nat
  | 0, i, st => (st, i)
  | fuel + 1, i, st =>
    if i < stop then
      let mi := load_int_le msg i 8
      let st := { st with v3 := st.v3 ^^^ mi }
      let st := c_rounds c st
      let st := { st with v0 := st.v0 ^^^ mi }
      writeLoop c msg stop fuel (i + 8) st
    else (st, i)

/-- The part of `Hasher::write` after the buffered tail has been dealt with
(source lines computing `len`, `left`, the block loop, and the new tail). -/
def Hasher.writeTail (c : Nat) (h : Hasher) (msg : List Nat) (needed : Nat) : Hasher :=
  let len := msg.length - needed
  let left := len &&& 0x7
  let p := writeLoop c msg (len - left) len needed h.state
  { h with state := p.1, tail := u8to64_le msg p.2 left, ntail := left }

/-- Model of `Hasher::write` in `sip.rs`. -/
def Hasher.write (c : Nat) (h : Hasher) (msg : List Nat) : Hasher :=
  let length := msg.length
  let h := { h with length := mask64 (h.length + length) }
  if h.ntail ≠ 0 then
    let needed := 8 - h.ntail
    if length < needed then
      { h with
        tail := h.tail ||| mask64 (u8to64_le msg 0 length <<< (8 * h.ntail))
        ntail := h.ntail + length }
    else
      let h := { h with tail := h.tail ||| mask64 (u8to64_le msg 0 needed <<< (8 * h.ntail)) }
      let st := { h.state with v3 := h.state.v3 ^^^ h.tail }
      let st := c_rounds c st
      let st := { st with v0 := st.v0 ^^^ h.tail }
      let h := { h with state := st, ntail := 0 }
      h.writeTail c msg needed
  else
    h.writeTail c msg 0

/-- Model of `Hasher::finish` in `sip.rs`; it takes `&self` in the source, which the
pure function type records: the engine itself is never altered. -/
def Hasher.finish (c d : Nat) (h : Hasher) : Nat :=
  let state := h.state
  let b : Nat := ((mask64 h.length &&& 0xff) <<< 56) ||| h.tail
  let state := { state with v3 := state.v3 ^^^ b }
  let state := c_rounds c state
  let state := { state with v0 := state.v0 ^^^ b }
  let state := { state with v2 := state.v2 ^^^ 0xff }
  let state := d_rounds d state
  state.v0 ^^^ state.v1 ^^^ state.v2 ^^^ state.v3

/-- The shared body of the three `hash` methods: copy the engine, `write`,
`finish`. -/
def Hasher.hash (c d : Nat) (h : Hasher) (bytes : List Nat) : Nat :=
  (h.write c bytes).finish c d

/-- Model of `SipHasher24::hash` (the wrapper stores a `Hasher<Sip24Rounds>`). -/
def SipHasher24.hash (h : Hasher) (bytes : List Nat) : Nat :=
  h.hash Sip24Rounds.C_ROUNDS Sip24Rounds.D_ROUNDS bytes

/-- Model of `SipHasher13::hash`. -/
def SipHasher13.hash (h : Hasher) (bytes : List Nat) : Nat :=
  h.hash Sip13Rounds.C_ROUNDS Sip13Rounds.D_ROUNDS bytes

/-- Model of `SipHasher::hash` (a `SipHasher` wraps a `SipHasher24`). -/
def SipHasher.hash (h : Hasher) (bytes : List Nat) : Nat :=
  SipHasher24.hash h bytes

/-! ### Checked variants recording the unchecked-indexing preconditions

The Rust loads (`load_int_le!`, `u8to64_le`, `ptr::read`) are `unsafe` with the
precondition that the accessed range lies inside the slice.  The following
variants return `none` exactly when such a precondition would be violated. -/

/-- Model of `load_int_le!` with its `debug_assert!(i + size <= buf.len())` bound made a
run-time check. -/
def load_int_le_c (buf : List Nat) (i size : Nat) : Option Nat :=
  if i + size ≤ buf.length then some (load_int_le buf i size) else none

/-- Model of `u8to64_le` with every byte access bounds-checked. -/
def u8to64_le_c (buf : List Nat) (start len : Nat) : Option Nat := do
  let i : Nat := 0
  let out : Nat := 0
  let s1 ← if i + 3 < len then do
      let v ← load_int_le_c buf (start + i) 4
      pure (v, i + 4)
    else pure (out, i)
  let out := s1.1
  let i := s1.2
  let s2 ← if i + 1 < len then do
      let v ← load_int_le_c buf (start + i) 2
      pure (out ||| (v <<< (i * 8)), i + 2)
    else pure (out, i)
  let out := s2.1
  let i := s2.2
  let s3 ← if i < len then do
      if _h : start + i < buf.length then
        pure (out ||| (buf.getD (start + i) 0 <<< (i * 8)), i + 1)
      else none
    else pure (out, i)
  pure s3.1

/-- The block loop of `Hasher::write` with each 8-byte load bounds-checked. -/
def writeLoop_c (c : Nat) (msg : List Nat) (stop : Nat) :
    Nat → Nat → State → Option (State × Nat)
  | 0, i, st => some (st, i)
  | fuel + 1, i, st =>
    if i < stop then do
      let mi ← load_int_le_c msg i 8
      let st := { st with v3 := st.v3 ^^^ mi }
      let st := c_rounds c st
      let st := { st with v0 := st.v0 ^^^ mi }
      writeLoop_c c msg stop fuel (i + 8) st
    else some (st, i)

/-- Variant of `Hasher.writeTail` with bounds-checked loads. -/
def Hasher.writeTail_c (c : Nat) (h : Hasher) (msg : List Nat) (needed : Nat) :
    Option Hasher := do
  let len := msg.length - needed
  let left := len &&& 0x7
  let p ← writeLoop_c c msg (len - left) len needed h.state
  let t ← u8to64_le_c msg p.2 left
  pure { h with state := p.1, tail := t, ntail := left }

/-- Model of `Hasher::write` with every unchecked byte access bounds-checked. -/
def Hasher.write_c (c : Nat) (h : Hasher) (msg : List Nat) : Option Hasher := do
  let length := msg.length
  let h := { h with length := mask64 (h.length + length) }
  if h.ntail ≠ 0 then
    let needed := 8 - h.ntail
    if length < needed then do
      let v ← u8to64_le_c msg 0 length
      pure { h with
        tail := h.tail ||| mask64 (v <<< (8 * h.ntail))
        ntail := h.ntail + length }
    else do
      let v ← u8to64_le_c msg 0 needed
      let h := { h with tail := h.tail ||| mask64 (v <<< (8 * h.ntail)) }
      let st := { h.state with v3 := h.state.v3 ^^^ h.tail }
      let st := c_rounds c st
      let st := { st with v0 := st.v0 ^^^ h.tail }
      let h := { h with state := st, ntail := 0 }
      h.writeTail_c c msg needed
  else
    h.writeTail_c c msg 0

/-! ### Specification-side byte-stream semantics

`leVal` is the little-endian value of a byte list, `canonical` is the closed
form of the engine after absorbing a given byte stream from a fresh keying. -/

/-- Little-endian value of a byte list. -/
def leVal : List Nat → Nat
  | [] => 0
  | b :: bs => b + 256 * leVal bs

/-- The `n` little-endian bytes of `x` (the model of `uN::to_le_bytes`). -/
def leBytes : Nat → Nat → List Nat
  | 0, _ => []
  | n + 1, x => (x % 256) :: leBytes n (x / 256)

/-- Every entry of the list is a byte value (models `&[u8]`). -/
def isBytes (bs : List Nat) : Bool := bs.all fun b => b < 256

/-- Absorb one 64-bit message block: `v3 ^= m; c_rounds; v0 ^= m`. -/
def absorb (c : Nat) (st : State) (m : Nat) : State :=
  let st := { st with v3 := st.v3 ^^^ m }
  let st := c_rounds c st
  { st with v0 := st.v0 ^^^ m }

/-- The keyed initial state of the key schedule. -/
def initState (k0 k1 : Nat) : State :=
  { v0 := k0 ^^^ 0x736f6d6570736575
    v1 := k1 ^^^ 0x646f72616e646f6d
    v2 := k0 ^^^ 0x6c7967656e657261
    v3 := k1 ^^^ 0x7465646279746573 }

/-- Absorb exactly `q` 8-byte blocks from the front of `bs`. -/
def absorbBlocks (c : Nat) (st : State) : List Nat → Nat → State
  | _, 0 => st
  | bs, q + 1 => absorbBlocks c (absorb c st (leVal (bs.take 8))) (bs.drop 8) q

/-- The closed form of the engine after a fresh keying with `(k0, k1)` has
absorbed the byte stream `bytes`: all full 8-byte blocks are mixed into the
state and the residue is buffered little-endian in `tail`. -/
def canonical (c k0 k1 : Nat) (bytes : List Nat) : Hasher :=
  { k0 := k0, k1 := k1
    length := bytes.length % M64
    state := absorbBlocks c (initState k0 k1) bytes (bytes.length / 8)
    tail := leVal (bytes.drop (8 * (bytes.length / 8)))
    ntail := bytes.length % 8 }

/-- The reference body of the block loop: absorb `q` blocks of `msg` starting
at offset `i`. -/
def loopSpec (c : Nat) (msg : List Nat) : Nat → Nat → State → State
  | _, 0, st => st
  | i, q + 1, st => loopSpec c msg (i + 8) q (absorb c st (load_int_le msg i 8))

/-! ### The public mutating interface as an operation trace -/

/-- One call of the public mutating interface of an engine. -/
inductive Op where
  | write : List Nat → Op
  | writeU8 : Nat → Op
  | writeU16 : Nat → Op
  | writeU32 : Nat → Op
  | writeU64 : Nat → Op
  | writeUsize : Nat → Op
  | finishOp : Op
deriving Repr, DecidableEq

/-- The argument of the call fits its Rust type. -/
def Op.valid : Op → Bool
  | .write msg => isBytes msg
  | .writeU8 x => x < 2 ^ 8
  | .writeU16 x => x < 2 ^ 16
  | .writeU32 x => x < 2 ^ 32
  | .writeU64 x => x < 2 ^ 64
  | .writeUsize x => x < 2 ^ 64
  | .finishOp => true

/-- The little-endian byte stream the call feeds to the absorber. -/
def Op.bytes : Op → List Nat
  | .write msg => msg
  | .writeU8 x => leBytes 1 x
  | .writeU16 x => leBytes 2 x
  | .writeU32 x => leBytes 4 x
  | .writeU64 x => leBytes 8 x
  | .writeUsize x => leBytes 8 x
  | .finishOp => []

/-- Run one call against the engine.  `finish` takes `&self` in the source and
leaves the engine unchanged. -/
def runOp (c : Nat) (h : Hasher) : Op → Hasher
  | .write msg => h.write c msg
  | .writeU8 x => h.write_u8 c x
  | .writeU16 x => h.write_u16 c x
  | .writeU32 x => h.write_u32 c x
  | .writeU64 x => h.write_u64 c x
  | .writeUsize x => h.write_usize c x
  | .finishOp => h

/-- Run a sequence of calls against the engine. -/
def runOps (c : Nat) (h : Hasher) (ops : List Op) : Hasher :=
  ops.foldl (runOp c) h

/-- The byte stream fed by a sequence of calls. -/
def opsBytes (ops : List Op) : List Nat :=
  (ops.map Op.bytes).flatten

/-! ### Basic arithmetic lemmas -/

theorem mask64_eq_of_lt {x : Nat} (h : x < M64) : mask64 x = x :=
  Nat.mod_eq_of_lt h

theorem lor_shift_eq_add {a k : Nat} (b : Nat) (h : a < 2 ^ k) :
    a ||| b <<< k = a + 2 ^ k * b := by
  rw [Nat.shiftLeft_eq, Nat.mul_comm b (2 ^ k), Nat.lor_comm,
    ← Nat.mul_add_lt_is_or h, Nat.add_comm]

theorem and_seven (n : Nat) : n &&& 0x7 = n % 8 := by
  have := Nat.and_pow_two_sub_one_eq_mod n 3
  norm_num at this
  exact this

theorem and_ff (n : Nat) : n &&& 0xff = n % 256 := by
  have := Nat.and_pow_two_sub_one_eq_mod n 8
  norm_num at this
  exact this

/-! ### Lemmas about `isBytes`, `leVal`, `leBytes`, `load_int_le` -/

theorem isBytes_iff {bs : List Nat} : isBytes bs = true ↔ ∀ b ∈ bs, b < 256 := by
  simp [isBytes]

theorem isBytes_drop {bs : List Nat} (h : isBytes bs = true) (n : Nat) :
    isBytes (bs.drop n) = true := by
  rw [isBytes_iff] at h ⊢
  exact fun b hb => h b (List.mem_of_mem_drop hb)

theorem isBytes_take {bs : List Nat} (h : isBytes bs = true) (n : Nat) :
    isBytes (bs.take n) = true := by
  rw [isBytes_iff] at h ⊢
  exact fun b hb => h b (List.mem_of_mem_take hb)

theorem isBytes_append {xs ys : List Nat} (hx : isBytes xs = true)
    (hy : isBytes ys = true) : isBytes (xs ++ ys) = true := by
  rw [isBytes_iff] at hx hy ⊢
  intro b hb
  rcases List.mem_append.mp hb with h | h
  · exact hx b h
  · exact hy b h

theorem leVal_lt {bs : List Nat} (h : isBytes bs = true) :
    leVal bs < 2 ^ (8 * bs.length) := by
  induction bs with
  | nil => simp [leVal]
  | cons b bs ih =>
    rw [isBytes_iff] at h
    have hb : b < 256 := h b (List.mem_cons_self b bs)
    have hbs : leVal bs < 2 ^ (8 * bs.length) := by
      refine ih ?_
      rw [isBytes_iff]
      exact fun x hx => h x (List.mem_cons_of_mem b hx)
    have : 8 * (b :: bs).length = 8 * bs.length + 8 := by
      simp [List.length_cons]; omega
    rw [this, pow_add, leVal]
    have h256 : (2 : Nat) ^ 8 = 256 := by norm_num
    calc b + 256 * leVal bs < 256 + 256 * leVal bs := by omega
    _ = 256 * (leVal bs + 1) := by ring
    _ ≤ 256 * 2 ^ (8 * bs.length) := by
        exact Nat.mul_le_mul_left 256 (by omega)
    _ = 2 ^ (8 * bs.length) * 2 ^ 8 := by rw [h256]; ring

theorem leVal_append (xs ys : List Nat) :
    leVal (xs ++ ys) = leVal xs + 2 ^ (8 * xs.length) * leVal ys := by
  induction xs with
  | nil => simp [leVal]
  | cons b bs ih =>
    have : 8 * (b :: bs).length = 8 * bs.length + 8 := by
      simp [List.length_cons]; omega
    rw [List.cons_append, leVal, leVal, ih, this, pow_add]
    norm_num
    ring

theorem leBytes_length (n x : Nat) : (leBytes n x).length = n := by
  induction n generalizing x with
  | zero => rfl
  | succ n ih => simp [leBytes, ih]

theorem isBytes_leBytes (n x : Nat) : isBytes (leBytes n x) = true := by
  induction n generalizing x with
  | zero => rfl
  | succ n ih =>
    rw [isBytes_iff]
    intro b hb
    rw [leBytes] at hb
    rcases List.mem_cons.mp hb with h | h
    · omega
    · exact isBytes_iff.mp (ih (x / 256)) b h

theorem leVal_leBytes (n x : Nat) : leVal (leBytes n x) = x % 2 ^ (8 * n) := by
  induction n generalizing x with
  | zero => simp [leBytes, leVal, Nat.mod_one]
  | succ n ih =>
    rw [leBytes, leVal, ih]
    have : 8 * (n + 1) = 8 + 8 * n := by omega
    rw [this, pow_add]
    have h256 : (2 : Nat) ^ 8 = 256 := by norm_num
    rw [h256, Nat.mod_mul]

theorem leBytes_drop (k n x : Nat) :
    (leBytes n x).drop k = leBytes (n - k) (x / 2 ^ (8 * k)) := by
  induction k generalizing n x with
  | zero => simp
  | succ k ih =>
    match n with
    | 0 => simp [leBytes]
    | n + 1 =>
      rw [leBytes, List.drop_succ_cons, ih]
      congr 1
      · omega
      · rw [Nat.div_div_eq_div_mul]
        congr 1
        have : 8 * (k + 1) = 8 + 8 * k := by omega
        rw [this, pow_add]
        norm_num

theorem load_int_le_eq {buf : List Nat} {i n : Nat} (h : i + n ≤ buf.length) :
    load_int_le buf i n = leVal ((buf.drop i).take n) := by
  induction n generalizing i with
  | zero => simp [load_int_le, leVal]
  | succ n ih =>
    have hi : i < buf.length := by omega
    rw [load_int_le, ih (by omega), List.drop_eq_getElem_cons hi, List.take_succ_cons, leVal]
    congr 1
    simp [List.getD_eq_getElem?_getD, List.getElem?_eq_getElem hi]

theorem getD_lt_of_isBytes {buf : List Nat} (hb : isBytes buf = true) (i : Nat) :
    buf.getD i 0 < 256 := by
  by_cases h : i < buf.length
  · have : buf.getD i 0 ∈ buf := by
      rw [List.getD_eq_getElem?_getD, List.getElem?_eq_getElem h]
      exact List.getElem_mem h
    exact isBytes_iff.mp hb _ this
  · rw [List.getD_eq_getElem?_getD, List.getElem?_eq_none (by omega)]
    norm_num

theorem load_int_le_lt {buf : List Nat} (hb : isBytes buf = true) (i n : Nat) :
    load_int_le buf i n < 2 ^ (8 * n) := by
  induction n generalizing i with
  | zero => simp [load_int_le]
  | succ n ih =>
    rw [load_int_le]
    have h1 := getD_lt_of_isBytes hb i
    have h2 := ih (i + 1)
    have : 8 * (n + 1) = 8 * n + 8 := by omega
    rw [this, pow_add]
    have h256 : (2 : Nat) ^ 8 = 256 := by norm_num
    rw [h256]
    calc buf.getD i 0 + 256 * load_int_le buf (i + 1) n
        < 256 + 256 * load_int_le buf (i + 1) n := by omega
    _ = 256 * (load_int_le buf (i + 1) n + 1) := by ring
    _ ≤ 256 * 2 ^ (8 * n) := Nat.mul_le_mul_left 256 (by omega)
    _ = 2 ^ (8 * n) * 256 := by ring

theorem load_int_le_split (buf : List Nat) (i m n : Nat) :
    load_int_le buf i (m + n) =
      load_int_le buf i m + 2 ^ (8 * m) * load_int_le buf (i + m) n := by
  induction m generalizing i with
  | zero => simp [load_int_le]
  | succ m ih =>
    have hadd : m + 1 + n = (m + n) + 1 := by omega
    rw [hadd, load_int_le, load_int_le, ih]
    have : 8 * (m + 1) = 8 * m + 8 := by omega
    rw [this, pow_add]
    have hi : i + 1 + m = i + (m + 1) := by omega
    rw [hi]
    norm_num
    ring

/-- On valid byte values, the shift-and-or combination in `u8to64_le` computes
the plain little-endian load of `len` bytes. -/
theorem u8to64_le_eq_load {buf : List Nat} (hb : isBytes buf = true) (start : Nat) {len : Nat}
    (hlen : len < 8) : u8to64_le buf start len = load_int_le buf start len := by
  have h1 : ∀ j, load_int_le buf j 1 = buf.getD j 0 := by
    intro j
    simp [load_int_le]
  interval_cases len
  · simp [u8to64_le, load_int_le]
  · simp [u8to64_le, load_int_le]
  · simp [u8to64_le]
  · have hb2 : load_int_le buf start 2 < 2 ^ 16 := by
      simpa using load_int_le_lt hb start 2
    have hs := load_int_le_split buf start 2 1
    simp [u8to64_le, lor_shift_eq_add _ hb2, h1] at hs ⊢
    omega
  · simp [u8to64_le]
  · have hb4 : load_int_le buf start 4 < 2 ^ 32 := by
      simpa using load_int_le_lt hb start 4
    have hs := load_int_le_split buf start 4 1
    simp [u8to64_le, lor_shift_eq_add _ hb4, h1] at hs ⊢
    omega
  · have hb4 : load_int_le buf start 4 < 2 ^ 32 := by
      simpa using load_int_le_lt hb start 4
    have hs := load_int_le_split buf start 4 2
    simp [u8to64_le, lor_shift_eq_add _ hb4, h1] at hs ⊢
    omega
  · have hb4 : load_int_le buf start 4 < 2 ^ 32 := by
      simpa using load_int_le_lt hb start 4
    have hb6 : load_int_le buf start 6 < 2 ^ 48 := by
      simpa using load_int_le_lt hb start 6
    have hs1 := load_int_le_split buf start 4 2
    have hs2 := load_int_le_split buf start 6 1
    simp [u8to64_le, lor_shift_eq_add _ hb4, h1] at hs1 hs2 ⊢
    rw [← hs1, lor_shift_eq_add _ hb6]
    norm_num at hs2 ⊢
    omega

/-- In-bounds `u8to64_le` on valid bytes is the little-endian value of the
addressed slice. -/
theorem u8to64_le_eq {buf : List Nat} (hb : isBytes buf = true) {start len : Nat}
    (hlen : len < 8) (hin : start + len ≤ buf.length) :
    u8to64_le buf start len = leVal ((buf.drop start).take len) := by
  rw [u8to64_le_eq_load hb start hlen, load_int_le_eq hin]

/-! ### The block loop -/

/-- With enough fuel, the fuelled loop performs exactly `⌈(stop − i) / 8⌉`
iterations and stops with `i` advanced by 8 per iteration. -/
theorem writeLoop_eq (c : Nat) (msg : List Nat) (stop : Nat) (q : Nat) :
    ∀ (fuel i : Nat) (st : State), q = (stop - i + 7) / 8 → q ≤ fuel →
      writeLoop c msg stop fuel i st = (loopSpec c msg i q st, i + 8 * q) := by
  induction q with
  | zero =>
    intro fuel i st hq hf
    have hstop : ¬ i < stop := by omega
    cases fuel with
    | zero => simp [writeLoop, loopSpec]
    | succ f => simp [writeLoop, loopSpec, hstop]
  | succ q ih =>
    intro fuel i st hq hf
    have hstop : i < stop := by omega
    cases fuel with
    | zero => omega
    | succ f =>
      simp only [writeLoop, if_pos hstop]
      rw [ih f (i + 8) _ (by omega) (by omega)]
      simp only [loopSpec, absorb, Prod.mk.injEq]
      exact ⟨trivial, by omega⟩

/-- When the loop stays inside `msg`, it absorbs the `q` successive 8-byte
blocks of `msg` starting at offset `i`. -/
theorem loopSpec_eq (c : Nat) (msg : List Nat) (q : Nat) :
    ∀ (i : Nat) (st : State), i + 8 * q ≤ msg.length →
      loopSpec c msg i q st = absorbBlocks c st (msg.drop i) q := by
  induction q with
  | zero =>
    intro i st _
    rfl
  | succ q ih =>
    intro i st hin
    rw [loopSpec, absorbBlocks, load_int_le_eq (by omega), ih (i + 8) _ (by omega),
      List.drop_drop]

/-! ### Lemmas about `absorbBlocks` and `canonical` -/

/-- An `absorbBlocks` run only looks at the first `8 * q` bytes. -/
theorem absorbBlocks_append (c : Nat) (q : Nat) :
    ∀ (st : State) (xs ys : List Nat), 8 * q ≤ xs.length →
      absorbBlocks c st (xs ++ ys) q = absorbBlocks c st xs q := by
  induction q with
  | zero =>
    intro st xs ys _
    rfl
  | succ q ih =>
    intro st xs ys h
    rw [absorbBlocks, absorbBlocks, List.take_append_of_le_length (by omega),
      List.drop_append_of_le_length (by omega), ih]
    simp
    omega

/-- Splitting an `absorbBlocks` run. -/
theorem absorbBlocks_add (c : Nat) (q1 : Nat) :
    ∀ (q2 : Nat) (st : State) (bs : List Nat),
      absorbBlocks c st bs (q1 + q2) =
        absorbBlocks c (absorbBlocks c st bs q1) (bs.drop (8 * q1)) q2 := by
  induction q1 with
  | zero =>
    intro q2 st bs
    simp [absorbBlocks]
  | succ q1 ih =>
    intro q2 st bs
    have h : q1 + 1 + q2 = (q1 + q2) + 1 := by omega
    rw [h, absorbBlocks, absorbBlocks, ih, List.drop_drop]
    congr 2
    omega


theorem writeTail_eq (c : Nat) (h : Hasher) (msg : List Nat) (needed : Nat)
    (hm : isBytes msg = true) (hneed : needed ≤ 7) (hlen : needed ≤ msg.length) :
    h.writeTail c msg needed =
      { h with
        state := absorbBlocks c h.state (msg.drop needed) ((msg.length - needed) / 8)
        tail := leVal (msg.drop (needed + 8 * ((msg.length - needed) / 8)))
        ntail := (msg.length - needed) % 8 } := by
  have hq : ((msg.length - needed) - (msg.length - needed) % 8 - needed + 7) / 8
      = (msg.length - needed) / 8 := by omega
  simp only [Hasher.writeTail, and_seven]
  rw [writeLoop_eq c msg _ ((msg.length - needed) / 8) _ needed h.state hq.symm (by omega)]
  rw [loopSpec_eq c msg _ needed h.state (by omega)]
  have hdl : (msg.drop (needed + 8 * ((msg.length - needed) / 8))).length
      = (msg.length - needed) % 8 := by
    rw [List.length_drop]
    omega
  rw [u8to64_le_eq hm (by omega) (by omega), ← hdl, List.take_length, hdl]


theorem write_eq_of_ntail_zero (c : Nat) (h : Hasher) (msg : List Nat)
    (hm : isBytes msg = true) (h0 : h.ntail = 0) :
    h.write c msg =
      { h with
        length := mask64 (h.length + msg.length)
        state := absorbBlocks c h.state msg (msg.length / 8)
        tail := leVal (msg.drop (8 * (msg.length / 8)))
        ntail := msg.length % 8 } := by
  simp only [Hasher.write, h0, ne_eq, not_true_eq_false, if_false]
  rw [writeTail_eq c _ msg 0 hm (by omega) (by omega)]
  simp

theorem write_eq_short (c : Nat) (h : Hasher) (msg : List Nat)
    (hn : h.ntail ≠ 0) (hlt : msg.length < 8 - h.ntail) :
    h.write c msg =
      { h with
        length := mask64 (h.length + msg.length)
        tail := h.tail ||| mask64 (u8to64_le msg 0 msg.length <<< (8 * h.ntail))
        ntail := h.ntail + msg.length } := by
  simp only [Hasher.write, hn, ne_eq, not_false_eq_true, if_true, if_pos hlt]

theorem write_eq_long (c : Nat) (h : Hasher) (msg : List Nat)
    (hm : isBytes msg = true) (hn : h.ntail ≠ 0) (hn7 : h.ntail ≤ 7)
    (hge : 8 - h.ntail ≤ msg.length) :
    h.write c msg =
      { h with
        length := mask64 (h.length + msg.length)
        state := absorbBlocks c
          (absorb c h.state
            (h.tail ||| mask64 (u8to64_le msg 0 (8 - h.ntail) <<< (8 * h.ntail))))
          (msg.drop (8 - h.ntail)) ((msg.length - (8 - h.ntail)) / 8)
        tail := leVal (msg.drop ((8 - h.ntail) + 8 * ((msg.length - (8 - h.ntail)) / 8)))
        ntail := (msg.length - (8 - h.ntail)) % 8 } := by
  have hnlt : ¬ msg.length < 8 - h.ntail := by omega
  simp only [Hasher.write, hn, ne_eq, not_false_eq_true, if_true, if_neg hnlt]
  rw [writeTail_eq c _ msg (8 - h.ntail) hm (by omega) (by omega)]
  simp [absorb]


theorem write_canonical_zero (c k0 k1 : Nat) (bytes msg : List Nat)
    (_hb : isBytes bytes = true) (hm : isBytes msg = true)
    (h0 : bytes.length % 8 = 0) :
    (canonical c k0 k1 bytes).write c msg = canonical c k0 k1 (bytes ++ msg) := by
  rw [write_eq_of_ntail_zero c _ msg hm (by simpa [canonical] using h0)]
  simp only [canonical, List.length_append]
  congr 1
  · -- length
    simp [mask64, M64, Nat.mod_add_mod]
  · -- state
    have hsplit : (bytes.length + msg.length) / 8 = bytes.length / 8 + msg.length / 8 := by
      omega
    rw [hsplit, absorbBlocks_add, absorbBlocks_append c _ _ _ _ (by omega),
      (by omega : 8 * (bytes.length / 8) = bytes.length), List.drop_left]
  · -- tail
    rw [(by omega : 8 * ((bytes.length + msg.length) / 8)
        = bytes.length + 8 * (msg.length / 8)), List.drop_append]
  · -- ntail
    omega


theorem write_canonical_short (c k0 k1 : Nat) (bytes msg : List Nat)
    (hb : isBytes bytes = true) (hm : isBytes msg = true)
    (hn : bytes.length % 8 ≠ 0) (hlt : msg.length < 8 - bytes.length % 8) :
    (canonical c k0 k1 bytes).write c msg = canonical c k0 k1 (bytes ++ msg) := by
  have hnt : (canonical c k0 k1 bytes).ntail = bytes.length % 8 := rfl
  rw [write_eq_short c _ msg (by rw [hnt]; exact hn) (by rw [hnt]; exact hlt)]
  have hu : u8to64_le msg 0 msg.length = leVal msg := by
    rw [u8to64_le_eq hm (by omega) (by omega)]
    simp
  have htl : leVal (bytes.drop (8 * (bytes.length / 8))) < 2 ^ (8 * (bytes.length % 8)) := by
    have := leVal_lt (isBytes_drop hb (8 * (bytes.length / 8)))
    rwa [List.length_drop,
      (by omega : bytes.length - 8 * (bytes.length / 8) = bytes.length % 8)] at this
  have hmask : mask64 (leVal msg <<< (8 * (bytes.length % 8)))
      = leVal msg <<< (8 * (bytes.length % 8)) := by
    apply mask64_eq_of_lt
    rw [Nat.shiftLeft_eq, M64]
    calc leVal msg * 2 ^ (8 * (bytes.length % 8))
        < 2 ^ (8 * msg.length) * 2 ^ (8 * (bytes.length % 8)) :=
          Nat.mul_lt_mul_of_lt_of_le (leVal_lt hm) (Nat.le_refl _) (Nat.pos_pow_of_pos _ (by omega))
    _ = 2 ^ (8 * msg.length + 8 * (bytes.length % 8)) := (pow_add 2 _ _).symm
    _ ≤ 2 ^ 64 := Nat.pow_le_pow_right (by omega) (by omega)
  simp only [canonical, List.length_append, hnt, hu, hmask]
  congr 1
  · simp [mask64, M64, Nat.mod_add_mod]
  · -- state
    rw [(by omega : (bytes.length + msg.length) / 8 = bytes.length / 8),
      absorbBlocks_append c _ _ _ _ (by omega)]
  · -- tail
    rw [lor_shift_eq_add _ htl,
      (by omega : 8 * ((bytes.length + msg.length) / 8) = 8 * (bytes.length / 8)),
      List.drop_append_of_le_length (by omega), leVal_append, List.length_drop,
      (by omega : bytes.length - 8 * (bytes.length / 8) = bytes.length % 8)]
  · -- ntail
    omega


theorem write_canonical_long (c k0 k1 : Nat) (bytes msg : List Nat)
    (hb : isBytes bytes = true) (hm : isBytes msg = true)
    (hn : bytes.length % 8 ≠ 0) (hge : 8 - bytes.length % 8 ≤ msg.length) :
    (canonical c k0 k1 bytes).write c msg = canonical c k0 k1 (bytes ++ msg) := by
  have hnt : (canonical c k0 k1 bytes).ntail = bytes.length % 8 := rfl
  rw [write_eq_long c _ msg hm (by rw [hnt]; exact hn) (by rw [hnt]; omega)
    (by rw [hnt]; exact hge)]
  have hu : u8to64_le msg 0 (8 - bytes.length % 8) = leVal (msg.take (8 - bytes.length % 8)) := by
    rw [u8to64_le_eq hm (by omega) (by omega)]
    simp
  have hvlt : leVal (msg.take (8 - bytes.length % 8)) < 2 ^ (8 * (8 - bytes.length % 8)) := by
    have := leVal_lt (isBytes_take hm (8 - bytes.length % 8))
    rwa [List.length_take, (by omega : min (8 - bytes.length % 8) msg.length
      = 8 - bytes.length % 8)] at this
  have htl : leVal (bytes.drop (8 * (bytes.length / 8))) < 2 ^ (8 * (bytes.length % 8)) := by
    have := leVal_lt (isBytes_drop hb (8 * (bytes.length / 8)))
    rwa [List.length_drop,
      (by omega : bytes.length - 8 * (bytes.length / 8) = bytes.length % 8)] at this
  have hmask : mask64 (leVal (msg.take (8 - bytes.length % 8)) <<< (8 * (bytes.length % 8)))
      = leVal (msg.take (8 - bytes.length % 8)) <<< (8 * (bytes.length % 8)) := by
    apply mask64_eq_of_lt
    rw [Nat.shiftLeft_eq, M64]
    calc leVal (msg.take (8 - bytes.length % 8)) * 2 ^ (8 * (bytes.length % 8))
        < 2 ^ (8 * (8 - bytes.length % 8)) * 2 ^ (8 * (bytes.length % 8)) :=
          Nat.mul_lt_mul_of_lt_of_le hvlt (Nat.le_refl _) (Nat.pos_pow_of_pos _ (by omega))
    _ = 2 ^ (8 * (8 - bytes.length % 8) + 8 * (bytes.length % 8)) := (pow_add 2 _ _).symm
    _ ≤ 2 ^ 64 := Nat.pow_le_pow_right (by omega) (by omega)
  have htailF : leVal (bytes.drop (8 * (bytes.length / 8)))
        ||| leVal (msg.take (8 - bytes.length % 8)) <<< (8 * (bytes.length % 8))
      = leVal (bytes.drop (8 * (bytes.length / 8)) ++ msg.take (8 - bytes.length % 8)) := by
    rw [lor_shift_eq_add _ htl, leVal_append, List.length_drop,
      (by omega : bytes.length - 8 * (bytes.length / 8) = bytes.length % 8)]
  have htake8 : (bytes.drop (8 * (bytes.length / 8)) ++ msg).take 8
      = bytes.drop (8 * (bytes.length / 8)) ++ msg.take (8 - bytes.length % 8) := by
    rw [List.take_append_eq_append_take,
      List.take_of_length_le (by rw [List.length_drop]; omega), List.length_drop,
      (by omega : 8 - (bytes.length - 8 * (bytes.length / 8)) = 8 - bytes.length % 8)]
  have hdrop8 : (bytes ++ msg).drop (8 * (bytes.length / 8 + 1))
      = msg.drop (8 - bytes.length % 8) := by
    rw [List.drop_append_eq_append_drop, List.drop_eq_nil_of_le (by omega),
      List.nil_append,
      (by omega : 8 * (bytes.length / 8 + 1) - bytes.length = 8 - bytes.length % 8)]
  simp only [canonical, List.length_append, hnt, hu, hmask, htailF]
  congr 1
  · simp [mask64, M64, Nat.mod_add_mod]
  · -- state
    rw [(by omega : (bytes.length + msg.length) / 8
        = (bytes.length / 8 + 1) + (msg.length - (8 - bytes.length % 8)) / 8),
      absorbBlocks_add, absorbBlocks_add c (bytes.length / 8) 1,
      absorbBlocks_append c _ _ _ _ (by omega),
      List.drop_append_of_le_length (by omega : 8 * (bytes.length / 8) ≤ bytes.length)]
    simp only [absorbBlocks]
    rw [htake8, hdrop8]
  · -- tail
    rw [(by omega : 8 * ((bytes.length + msg.length) / 8)
        = bytes.length + ((8 - bytes.length % 8)
          + 8 * ((msg.length - (8 - bytes.length % 8)) / 8))),
      List.drop_append]
  · -- ntail
    omega


theorem write_canonical (c k0 k1 : Nat) (bytes msg : List Nat)
    (hb : isBytes bytes = true) (hm : isBytes msg = true) :
    (canonical c k0 k1 bytes).write c msg = canonical c k0 k1 (bytes ++ msg) := by
  by_cases h0 : bytes.length % 8 = 0
  · exact write_canonical_zero c k0 k1 bytes msg hb hm h0
  · by_cases hlt : msg.length < 8 - bytes.length % 8
    · exact write_canonical_short c k0 k1 bytes msg hb hm h0 hlt
    · exact write_canonical_long c k0 k1 bytes msg hb hm h0 (by omega)

theorem canonical_nil (c k0 k1 : Nat) :
    canonical c k0 k1 [] = Hasher.new_with_keys k0 k1 := by
  simp [canonical, Hasher.new_with_keys, Hasher.reset, absorbBlocks, initState, leVal]


theorem leBytes_take (k n x : Nat) :
    (leBytes n x).take k = leBytes (min k n) x := by
  induction k generalizing n x with
  | zero => simp [leBytes]
  | succ k ih =>
    match n with
    | 0 => simp [leBytes]
    | n + 1 =>
      rw [leBytes, List.take_succ_cons, ih]
      have : min (k + 1) (n + 1) = min k n + 1 := by omega
      rw [this, leBytes]

theorem short_write_eq_write (c size x : Nat) (h : Hasher)
    (hnt : h.ntail ≤ 7) (htl : h.tail < 2 ^ (8 * h.ntail))
    (hs1 : 1 ≤ size) (hs8 : size ≤ 8) (hx : x < 2 ^ (8 * size)) :
    h.short_write c size x = h.write c (leBytes size x) := by
  have hlb : isBytes (leBytes size x) = true := isBytes_leBytes size x
  have hlen : (leBytes size x).length = size := leBytes_length size x
  have hxm : x % 2 ^ (8 * size) = x := Nat.mod_eq_of_lt hx
  have hx64 : x < M64 := by
    calc x < 2 ^ (8 * size) := hx
    _ ≤ 2 ^ 64 := Nat.pow_le_pow_right (by omega) (by omega)
  by_cases h0 : h.ntail = 0
  · have htz : h.tail = 0 := by
      simp [h0] at htl
      omega
    rw [write_eq_of_ntail_zero c h _ hlb h0, hlen]
    by_cases hsz : size < 8
    · have : size / 8 = 0 := by omega
      simp only [Hasher.short_write, h0, htz, Nat.mul_zero, Nat.shiftLeft_zero,
        Nat.sub_zero, if_pos hsz, this, Nat.mul_zero]
      rw [mask64_eq_of_lt hx64]
      simp only [Nat.zero_or, absorbBlocks, List.drop_zero]
      rw [leVal_leBytes, hxm]
      congr 1
      omega
    · have hsz8 : size = 8 := by omega
      subst hsz8
      simp only [Hasher.short_write, h0, htz, Nat.mul_zero, Nat.shiftLeft_zero,
        Nat.sub_zero, if_neg (by omega : ¬ (8 : Nat) < 8)]
      rw [mask64_eq_of_lt hx64]
      simp only [Nat.zero_or, absorbBlocks]
      rw [(by omega : (8 : Nat) / 8 = 1)]
      simp only [absorbBlocks, absorb]
      rw [leBytes_take, (by omega : min 8 8 = 8), leVal_leBytes, hxm,
        leBytes_drop, (by omega : (8 : Nat) - 8 = 0)]
      simp [leBytes, leVal, (by omega : (8 : Nat) % 8 = 0)]
  · by_cases hslt : size < 8 - h.ntail
    · rw [write_eq_short c h _ (by omega) (by rw [hlen]; omega), hlen,
        u8to64_le_eq hlb (by omega) (by rw [hlen]; omega), List.drop_zero,
        leBytes_take, Nat.min_self, leVal_leBytes, hxm]
      simp only [Hasher.short_write, hlen, if_pos hslt]
    · have hpow : (2 : Nat) ^ 64 = 2 ^ (8 * (8 - h.ntail)) * 2 ^ (8 * h.ntail) := by
        rw [← pow_add]
        congr 1
        omega
      have hmask : mask64 (x <<< (8 * h.ntail))
          = (x % 2 ^ (8 * (8 - h.ntail))) <<< (8 * h.ntail) := by
        rw [Nat.shiftLeft_eq, Nat.shiftLeft_eq, mask64, M64, hpow]
        exact Nat.mul_mod_mul_right _ _ _
      have hvlt : (x % 2 ^ (8 * (8 - h.ntail))) <<< (8 * h.ntail) < M64 := by
        rw [Nat.shiftLeft_eq, M64, hpow]
        exact Nat.mul_lt_mul_of_lt_of_le (Nat.mod_lt _ (Nat.pos_pow_of_pos _ (by omega)))
          (Nat.le_refl _) (Nat.pos_pow_of_pos _ (by omega))
      have hmask2 : mask64 (x <<< (8 * h.ntail))
          = mask64 ((x % 2 ^ (8 * (8 - h.ntail))) <<< (8 * h.ntail)) := by
        rw [hmask, mask64_eq_of_lt hvlt]
      have hdiv : x / 2 ^ (8 * (8 - h.ntail)) % 2 ^ (8 * (size - (8 - h.ntail)))
          = x / 2 ^ (8 * (8 - h.ntail)) := by
        apply Nat.mod_eq_of_lt
        apply Nat.div_lt_of_lt_mul
        calc x < 2 ^ (8 * size) := hx
        _ = 2 ^ (8 * (8 - h.ntail)) * 2 ^ (8 * (size - (8 - h.ntail))) := by
            rw [← pow_add]
            congr 1
            omega
      have hd : (size - (8 - h.ntail)) / 8 = 0 := by omega
      rw [write_eq_long c h _ hlb (by omega) hnt (by rw [hlen]; omega), hlen,
        u8to64_le_eq hlb (by omega) (by rw [hlen]; omega), List.drop_zero,
        leBytes_take, (by omega : min (8 - h.ntail) size = 8 - h.ntail), leVal_leBytes,
        hd, Nat.mul_zero, Nat.add_zero, leBytes_drop, leVal_leBytes, hdiv]
      simp only [Hasher.short_write, absorbBlocks, absorb, if_neg hslt]
      rw [if_pos (by omega : 8 - h.ntail < 8), Nat.shiftRight_eq_div_pow, hmask2,
        (by omega : (size - (8 - h.ntail)) % 8 = size - (8 - h.ntail))]


theorem canonical_ntail_le (c k0 k1 : Nat) (bytes : List Nat) :
    (canonical c k0 k1 bytes).ntail ≤ 7 := by
  simp only [canonical]
  omega

theorem canonical_tail_lt (c k0 k1 : Nat) (bytes : List Nat) (hb : isBytes bytes = true) :
    (canonical c k0 k1 bytes).tail < 2 ^ (8 * (canonical c k0 k1 bytes).ntail) := by
  simp only [canonical]
  have := leVal_lt (isBytes_drop hb (8 * (bytes.length / 8)))
  rwa [List.length_drop,
    (by omega : bytes.length - 8 * (bytes.length / 8) = bytes.length % 8)] at this

theorem isBytes_opBytes {op : Op} (hv : op.valid = true) : isBytes op.bytes = true := by
  cases op with
  | write msg => exact hv
  | writeU8 x => exact isBytes_leBytes 1 x
  | writeU16 x => exact isBytes_leBytes 2 x
  | writeU32 x => exact isBytes_leBytes 4 x
  | writeU64 x => exact isBytes_leBytes 8 x
  | writeUsize x => exact isBytes_leBytes 8 x
  | finishOp => rfl

theorem runOp_canonical (c k0 k1 : Nat) (pre : List Nat) (op : Op)
    (hpre : isBytes pre = true) (hv : op.valid = true) :
    runOp c (canonical c k0 k1 pre) op = canonical c k0 k1 (pre ++ op.bytes) := by
  have hnt := canonical_ntail_le c k0 k1 pre
  have htl := canonical_tail_lt c k0 k1 pre hpre
  cases op with
  | write msg => exact write_canonical c k0 k1 pre msg hpre hv
  | writeU8 x =>
    rw [runOp, Hasher.write_u8, short_write_eq_write c 1 x _ hnt htl (by omega) (by omega)
      (by simpa [Op.valid] using hv)]
    exact write_canonical c k0 k1 pre _ hpre (isBytes_leBytes 1 x)
  | writeU16 x =>
    rw [runOp, Hasher.write_u16, short_write_eq_write c 2 x _ hnt htl (by omega) (by omega)
      (by simpa [Op.valid] using hv)]
    exact write_canonical c k0 k1 pre _ hpre (isBytes_leBytes 2 x)
  | writeU32 x =>
    rw [runOp, Hasher.write_u32, short_write_eq_write c 4 x _ hnt htl (by omega) (by omega)
      (by simpa [Op.valid] using hv)]
    exact write_canonical c k0 k1 pre _ hpre (isBytes_leBytes 4 x)
  | writeU64 x =>
    rw [runOp, Hasher.write_u64, short_write_eq_write c 8 x _ hnt htl (by omega) (by omega)
      (by simpa [Op.valid] using hv)]
    exact write_canonical c k0 k1 pre _ hpre (isBytes_leBytes 8 x)
  | writeUsize x =>
    rw [runOp, Hasher.write_usize, short_write_eq_write c 8 x _ hnt htl (by omega) (by omega)
      (by simpa [Op.valid] using hv)]
    exact write_canonical c k0 k1 pre _ hpre (isBytes_leBytes 8 x)
  | finishOp => simp [runOp, Op.bytes]

theorem runOps_canonical (c k0 k1 : Nat) (ops : List Op) :
    ∀ (pre : List Nat), isBytes pre = true → (∀ op ∈ ops, op.valid = true) →
      runOps c (canonical c k0 k1 pre) ops = canonical c k0 k1 (pre ++ opsBytes ops) := by
  induction ops with
  | nil =>
    intro pre _ _
    simp [runOps, opsBytes]
  | cons op rest ih =>
    intro pre hpre hv
    have hopv : op.valid = true := hv op (List.mem_cons_self op rest)
    have hrest : ∀ o ∈ rest, o.valid = true := fun o ho => hv o (List.mem_cons_of_mem op ho)
    have hstep : runOps c (canonical c k0 k1 pre) (op :: rest)
        = runOps c (runOp c (canonical c k0 k1 pre) op) rest := rfl
    rw [hstep, runOp_canonical c k0 k1 pre op hpre hopv,
      ih (pre ++ op.bytes) (isBytes_append hpre (isBytes_opBytes hopv)) hrest]
    have hob : opsBytes (op :: rest) = op.bytes ++ opsBytes rest := by
      simp [opsBytes]
    rw [hob, List.append_assoc]

theorem runOps_new (c k0 k1 : Nat) (ops : List Op) (hv : ∀ op ∈ ops, op.valid = true) :
    runOps c (Hasher.new_with_keys k0 k1) ops = canonical c k0 k1 (opsBytes ops) := by
  rw [← canonical_nil c k0 k1, runOps_canonical c k0 k1 ops [] rfl hv, List.nil_append]

/-! ### Equivalence of the checked and the unchecked absorber -/

theorem u8to64_le_c_eq {buf : List Nat} {start len : Nat} (hin : start + len ≤ buf.length) :
    u8to64_le_c buf start len = some (u8to64_le buf start len) := by
  rcases Nat.lt_or_ge len 7 with hl | hl
  · interval_cases len
    · simp_all [u8to64_le_c, u8to64_le, load_int_le_c]
    · simp_all [u8to64_le_c, u8to64_le, load_int_le_c]
      omega
    · simp_all [u8to64_le_c, u8to64_le, load_int_le_c]
    · have b1 : start + 0 + 2 ≤ buf.length := by omega
      have b2 : start + 2 < buf.length := by omega
      simp_all [u8to64_le_c, u8to64_le, load_int_le_c]
    · simp_all [u8to64_le_c, u8to64_le, load_int_le_c]
    · have b1 : start + 0 + 4 ≤ buf.length := by omega
      have b2 : start + 4 < buf.length := by omega
      simp_all [u8to64_le_c, u8to64_le, load_int_le_c]
    · have b1 : start + 0 + 4 ≤ buf.length := by omega
      have b2 : start + 4 + 2 ≤ buf.length := by omega
      simp_all [u8to64_le_c, u8to64_le, load_int_le_c]
  · have c1 : (0 : Nat) + 3 < len := by omega
    have b1 : start + 0 + 4 ≤ buf.length := by omega
    have c2 : (4 : Nat) + 1 < len := by omega
    have b2 : start + 4 + 2 ≤ buf.length := by omega
    have c3 : 6 < len := by omega
    have b3 : start + 6 < buf.length := by omega
    simp [u8to64_le_c, u8to64_le, load_int_le_c, c1, b1, c2, b2, c3, b3]


theorem writeLoop_c_eq (c : Nat) (msg : List Nat) (stop : Nat) (q : Nat) :
    ∀ (fuel i : Nat) (st : State), q = (stop - i + 7) / 8 → q ≤ fuel →
      i + 8 * q ≤ msg.length →
      writeLoop_c c msg stop fuel i st = some (loopSpec c msg i q st, i + 8 * q) := by
  induction q with
  | zero =>
    intro fuel i st hq hf _
    have hstop : ¬ i < stop := by omega
    cases fuel with
    | zero => simp [writeLoop_c, loopSpec]
    | succ f => simp [writeLoop_c, loopSpec, hstop]
  | succ q ih =>
    intro fuel i st hq hf hin
    have hstop : i < stop := by omega
    cases fuel with
    | zero => omega
    | succ f =>
      simp only [writeLoop_c, if_pos hstop, load_int_le_c,
        if_pos (by omega : i + 8 ≤ msg.length), Option.bind_eq_bind, Option.some_bind]
      rw [ih f (i + 8) _ (by omega) (by omega) (by omega)]
      simp only [loopSpec, absorb, Prod.mk.injEq, Option.some.injEq]
      exact ⟨trivial, by omega⟩

theorem writeTail_c_eq (c : Nat) (h : Hasher) (msg : List Nat) (needed : Nat)
    (hneed : needed ≤ 7) (hlen : needed ≤ msg.length) :
    h.writeTail_c c msg needed = some (h.writeTail c msg needed) := by
  have hq : ((msg.length - needed) - (msg.length - needed) % 8 - needed + 7) / 8
      = (msg.length - needed) / 8 := by omega
  simp only [Hasher.writeTail_c, Hasher.writeTail, and_seven]
  rw [writeLoop_c_eq c msg _ ((msg.length - needed) / 8) _ needed h.state hq.symm
      (by omega) (by omega),
    writeLoop_eq c msg _ ((msg.length - needed) / 8) _ needed h.state hq.symm (by omega)]
  simp only [Option.bind_eq_bind, Option.some_bind]
  rw [u8to64_le_c_eq (by omega)]
  simp only [Option.some_bind, Option.pure_def]


theorem write_c_eq (c : Nat) (h : Hasher) (msg : List Nat) (hn : h.ntail ≤ 7) :
    h.write_c c msg = some (h.write c msg) := by
  by_cases h0 : h.ntail = 0
  · simp only [Hasher.write_c, Hasher.write, h0, ne_eq, not_true_eq_false, if_false]
    exact writeTail_c_eq c _ msg 0 (by omega) (by omega)
  · by_cases hlt : msg.length < 8 - h.ntail
    · simp only [Hasher.write_c, Hasher.write, h0, ne_eq, not_false_eq_true, if_true,
        if_pos hlt]
      rw [u8to64_le_c_eq (by omega : 0 + msg.length ≤ msg.length)]
      simp only [Option.bind_eq_bind, Option.some_bind, Option.pure_def]
    · simp only [Hasher.write_c, Hasher.write, h0, ne_eq, not_false_eq_true, if_true,
        if_neg hlt]
      rw [u8to64_le_c_eq (by omega : 0 + (8 - h.ntail) ≤ msg.length)]
      simp only [Option.bind_eq_bind, Option.some_bind]
      exact writeTail_c_eq c _ msg (8 - h.ntail) (by omega) (by omega)


/-- One SipRound as the specification states it (section 4.1): four ARX
quarter-steps on the tuple `(v0, v1, v2, v3)`, additions modulo `2 ^ 64`,
`<<<` the 64-bit left rotation. -/
def sipRound (v : Nat × Nat × Nat × Nat) : Nat × Nat × Nat × Nat :=
  let v0 := v.1
  let v1 := v.2.1
  let v2 := v.2.2.1
  let v3 := v.2.2.2
  let v0 := (v0 + v1) % 2 ^ 64
  let v1 := rotl64 v1 13
  let v1 := v1 ^^^ v0
  let v0 := rotl64 v0 32
  let v2 := (v2 + v3) % 2 ^ 64
  let v3 := rotl64 v3 16
  let v3 := v3 ^^^ v2
  let v0 := (v0 + v3) % 2 ^ 64
  let v3 := rotl64 v3 21
  let v3 := v3 ^^^ v0
  let v2 := (v2 + v1) % 2 ^ 64
  let v1 := rotl64 v1 17
  let v1 := v1 ^^^ v2
  let v2 := rotl64 v2 32
  (v0, v1, v2, v3)

/-- The finalization as the specification states it (section 4.2):
`b = ((length mod 256) << 56) | tail`, absorb `b`, xor `0xff` into `v2`,
`d` rounds, xor the four lanes. -/
def finishSpec (c d : Nat) (h : Hasher) : Nat :=
  let b := ((h.length % 256) <<< 56) ||| h.tail
  let st := h.state
  let st := { st with v3 := st.v3 ^^^ b }
  let st := c_rounds c st
  let st := { st with v0 := st.v0 ^^^ b }
  let st := { st with v2 := st.v2 ^^^ 0xff }
  let st := d_rounds d st
  st.v0 ^^^ st.v1 ^^^ st.v2 ^^^ st.v3

theorem c_rounds_eq_iterate (n : Nat) (st : State) : c_rounds n st = compress^[n] st := by
  induction n generalizing st with
  | zero => rfl
  | succ n ih => rw [c_rounds, Function.iterate_succ_apply, ih]

theorem d_rounds_eq_iterate (n : Nat) (st : State) : d_rounds n st = compress^[n] st := by
  induction n generalizing st with
  | zero => rfl
  | succ n ih => rw [d_rounds, Function.iterate_succ_apply, ih]

theorem isBytes_opsBytes {ops : List Op} (hv : ∀ op ∈ ops, op.valid = true) :
    isBytes (opsBytes ops) = true := by
  rw [isBytes_iff]
  intro b hb
  rcases List.mem_flatten.mp hb with ⟨bs, hbs, hbbs⟩
  rcases List.mem_map.mp hbs with ⟨op, hop, rfl⟩
  exact isBytes_iff.mp (isBytes_opBytes (hv op hop)) b hbbs


/-- Claim C1: for every key pair, every byte stream, and every partition of the
stream into a sequence of chunks (the split `bytes = a ++ b` is the instance
`chunks = [a, b]`), feeding the chunks to a fresh engine via successive `write`
calls and then calling `finish` yields the same digest as the one-shot `hash`
of the whole stream under the same keys, for any round counts `(c, d)` — in
particular for `SipHasher24.hash` with `(2, 4)` and `SipHasher13.hash` with
`(1, 3)`. -/
theorem C1_split_granularity (c d k0 k1 : Nat) (chunks : List (List Nat))
    (hc : ∀ ch ∈ chunks, isBytes ch = true) :
    (chunks.foldl (fun acc ch => acc.write c ch) (Hasher.new_with_keys k0 k1)).finish c d
      = (Hasher.new_with_keys k0 k1).hash c d chunks.flatten := by
  have hflat : isBytes chunks.flatten = true := by
    rw [isBytes_iff]
    intro b hb
    rcases List.mem_flatten.mp hb with ⟨ch, hch, hbch⟩
    exact isBytes_iff.mp (hc ch hch) b hbch
  have hops : ∀ op ∈ chunks.map Op.write, op.valid = true := by
    intro op hop
    rcases List.mem_map.mp hop with ⟨ch, hch, rfl⟩
    exact hc ch hch
  have hfold : chunks.foldl (fun acc ch => acc.write c ch) (Hasher.new_with_keys k0 k1)
      = runOps c (Hasher.new_with_keys k0 k1) (chunks.map Op.write) := by
    rw [runOps, List.foldl_map]
    rfl
  have hbytes : opsBytes (chunks.map Op.write) = chunks.flatten := by
    rw [opsBytes, List.map_map]
    simp [Function.comp_def, Op.bytes]
  rw [hfold, runOps_new c k0 k1 _ hops, hbytes, Hasher.hash, ← canonical_nil c k0 k1,
    write_canonical c k0 k1 [] chunks.flatten rfl hflat, List.nil_append]

theorem C1_witness :
    (∀ ch ∈ [[0, 1, 2, 3, 4], [5], [], [6, 7, 8, 9, 10, 11, 12]], isBytes ch = true)
    ∧ ([[0, 1, 2, 3, 4], [5], [], [6, 7, 8, 9, 10, 11, 12]].foldl
          (fun acc ch => acc.write 2 ch) (Hasher.new_with_keys 3 4)).finish 2 4
        = (Hasher.new_with_keys 3 4).hash 2 4
            [[0, 1, 2, 3, 4], [5], [], [6, 7, 8, 9, 10, 11, 12]].flatten :=
  ⟨by decide, C1_split_granularity 2 4 3 4 _ (by decide)⟩

/-- Claim C2 counterexample: the digest of the 15 bytes `0x00..0x0e` under the
reference keys does not have little-endian byte serialization
`a1 29 ca 61 49 be 45 e5`; that hex string is the `u64` digest value itself. -/
theorem C2_counterexample :
    ¬ leBytes 8 (SipHasher24.hash
          (Hasher.new_with_keys 0x0706050403020100 0x0f0e0d0c0b0a0908)
          [0x00, 0x01, 0x02, 0x03, 0x04, 0x05, 0x06, 0x07, 0x08, 0x09, 0x0a, 0x0b, 0x0c,
            0x0d, 0x0e])
        = [0xa1, 0x29, 0xca, 0x61, 0x49, 0xbe, 0x45, 0xe5] := by
  decide

/-- Claim C2 (amended): with `k0 = 0x0706050403020100`, `k1 = 0x0f0e0d0c0b0a0908`
the SipHash-2-4 64-bit engine produces the official reference digests: the empty
input gives LE bytes `31 0e 0e dd 47 db 6f 72` (the u64 `0x726fdb47dd0e0e31`);
the byte `0x00` gives LE bytes `fd 67 dc 93 c5 39 f8 74` (the u64
`0x74f839c593dc67fd`); the 15 bytes `0x00..0x0e` give the u64
`0xa129ca6149be45e5`, whose LE byte serialization is
`e5 45 be 49 61 ca 29 a1`. -/
theorem C2_reference_vectors :
    SipHasher24.hash (Hasher.new_with_keys 0x0706050403020100 0x0f0e0d0c0b0a0908) []
        = 0x726fdb47dd0e0e31
    ∧ leBytes 8 0x726fdb47dd0e0e31 = [0x31, 0x0e, 0x0e, 0xdd, 0x47, 0xdb, 0x6f, 0x72]
    ∧ SipHasher24.hash (Hasher.new_with_keys 0x0706050403020100 0x0f0e0d0c0b0a0908) [0x00]
        = 0x74f839c593dc67fd
    ∧ leBytes 8 0x74f839c593dc67fd = [0xfd, 0x67, 0xdc, 0x93, 0xc5, 0x39, 0xf8, 0x74]
    ∧ SipHasher24.hash (Hasher.new_with_keys 0x0706050403020100 0x0f0e0d0c0b0a0908)
          [0x00, 0x01, 0x02, 0x03, 0x04, 0x05, 0x06, 0x07, 0x08, 0x09, 0x0a, 0x0b, 0x0c,
            0x0d, 0x0e]
        = 0xa129ca6149be45e5
    ∧ leBytes 8 0xa129ca6149be45e5 = [0xe5, 0x45, 0xbe, 0x49, 0x61, 0xca, 0x29, 0xa1] := by
  refine ⟨by decide, by decide, by decide, by decide, by decide, by decide⟩


/-- Claim C3: every engine state reachable from construction by a sequence of
`write`, `write_u8/u16/u32/u64/usize` and `finish` calls (with fewer than
`2 ^ 64` bytes absorbed, the range of the `usize` byte counter) satisfies the
four data-model invariants: `ntail ≤ 7`; the bits of `tail` at positions
`ntail * 8` and above are zero; `length` equals the total number of bytes
absorbed; and the state is exactly the initial keyed state with
`(length - ntail) / 8` message blocks c-round-mixed in. -/
theorem C3_invariants (c k0 k1 : Nat) (ops : List Op)
    (hv : ∀ op ∈ ops, op.valid = true)
    (hlen : (opsBytes ops).length < 2 ^ 64) :
    (runOps c (Hasher.new_with_keys k0 k1) ops).ntail ≤ 7
    ∧ (runOps c (Hasher.new_with_keys k0 k1) ops).tail
        >>> (8 * (runOps c (Hasher.new_with_keys k0 k1) ops).ntail) = 0
    ∧ (runOps c (Hasher.new_with_keys k0 k1) ops).length = (opsBytes ops).length
    ∧ (runOps c (Hasher.new_with_keys k0 k1) ops).state
        = absorbBlocks c (initState k0 k1) (opsBytes ops)
            (((runOps c (Hasher.new_with_keys k0 k1) ops).length
                - (runOps c (Hasher.new_with_keys k0 k1) ops).ntail) / 8) := by
  have hB : isBytes (opsBytes ops) = true := isBytes_opsBytes hv
  rw [runOps_new c k0 k1 ops hv]
  refine ⟨canonical_ntail_le c k0 k1 _, ?_, ?_, ?_⟩
  · rw [Nat.shiftRight_eq_div_pow]
    exact Nat.div_eq_of_lt (canonical_tail_lt c k0 k1 _ hB)
  · simp only [canonical, M64]
    exact Nat.mod_eq_of_lt hlen
  · simp only [canonical, M64]
    congr 1
    have h64 : (opsBytes ops).length % 2 ^ 64 = (opsBytes ops).length :=
      Nat.mod_eq_of_lt hlen
    omega

theorem C3_witness :
    (∀ op ∈ [Op.write [1, 2, 3], Op.writeU32 305419896, Op.finishOp,
        Op.write [9, 10, 11, 12, 13], Op.writeU8 7], Op.valid op = true)
    ∧ (opsBytes [Op.write [1, 2, 3], Op.writeU32 305419896, Op.finishOp,
        Op.write [9, 10, 11, 12, 13], Op.writeU8 7]).length < 2 ^ 64
    ∧ ((runOps 2 (Hasher.new_with_keys 20 21) [Op.write [1, 2, 3], Op.writeU32 305419896,
          Op.finishOp, Op.write [9, 10, 11, 12, 13], Op.writeU8 7]).ntail ≤ 7
      ∧ (runOps 2 (Hasher.new_with_keys 20 21) [Op.write [1, 2, 3], Op.writeU32 305419896,
          Op.finishOp, Op.write [9, 10, 11, 12, 13], Op.writeU8 7]).tail
          >>> (8 * (runOps 2 (Hasher.new_with_keys 20 21) [Op.write [1, 2, 3],
            Op.writeU32 305419896, Op.finishOp, Op.write [9, 10, 11, 12, 13],
            Op.writeU8 7]).ntail) = 0
      ∧ (runOps 2 (Hasher.new_with_keys 20 21) [Op.write [1, 2, 3], Op.writeU32 305419896,
          Op.finishOp, Op.write [9, 10, 11, 12, 13], Op.writeU8 7]).length
          = (opsBytes [Op.write [1, 2, 3], Op.writeU32 305419896, Op.finishOp,
              Op.write [9, 10, 11, 12, 13], Op.writeU8 7]).length
      ∧ (runOps 2 (Hasher.new_with_keys 20 21) [Op.write [1, 2, 3], Op.writeU32 305419896,
          Op.finishOp, Op.write [9, 10, 11, 12, 13], Op.writeU8 7]).state
          = absorbBlocks 2 (initState 20 21) (opsBytes [Op.write [1, 2, 3],
              Op.writeU32 305419896, Op.finishOp, Op.write [9, 10, 11, 12, 13],
              Op.writeU8 7])
              (((runOps 2 (Hasher.new_with_keys 20 21) [Op.write [1, 2, 3],
                  Op.writeU32 305419896, Op.finishOp, Op.write [9, 10, 11, 12, 13],
                  Op.writeU8 7]).length
                - (runOps 2 (Hasher.new_with_keys 20 21) [Op.write [1, 2, 3],
                    Op.writeU32 305419896, Op.finishOp, Op.write [9, 10, 11, 12, 13],
                    Op.writeU8 7]).ntail) / 8)) :=
  ⟨by decide, by decide, C3_invariants 2 20 21 _ (by decide) (by decide)⟩

/-- Claim C4: for every engine state with `ntail ≤ 7` (which holds in every
reachable state) and every input slice, the bounds-checked variant of `write`
— in which every unchecked byte load (`u8to64_le` into the tail, the 8-byte
block loads, and the final residual `u8to64_le`) verifies its indices against
the slice length — succeeds and returns exactly the unchecked result, so every
unchecked access stays within `msg`. -/
theorem C4_no_out_of_range (c : Nat) (h : Hasher) (msg : List Nat) (hn : h.ntail ≤ 7) :
    h.write_c c msg = some (h.write c msg) :=
  write_c_eq c h msg hn

theorem C4_witness :
    ((Hasher.new_with_keys 1 2).write_u8 2 9).ntail ≤ 7
    ∧ ((Hasher.new_with_keys 1 2).write_u8 2 9).write_c 2 [1, 2, 3, 4, 5, 6, 7, 8, 9, 10]
      = some (((Hasher.new_with_keys 1 2).write_u8 2 9).write 2
          [1, 2, 3, 4, 5, 6, 7, 8, 9, 10]) :=
  ⟨by decide, C4_no_out_of_range 2 _ _ (by decide)⟩

/-- Claim C5: the compression step of both hashers is exactly the SipRound
permutation of the specification (`sipRound` below transcribes section 4.1),
`c_rounds`/`d_rounds` iterate it exactly the given number of times, and the
round-count constants are `(1, 3)` for `Sip13Rounds` and `(2, 4)` for
`Sip24Rounds`. -/
theorem C5_compression_rounds :
    (∀ s : State,
      ((compress s).v0, (compress s).v1, (compress s).v2, (compress s).v3)
        = sipRound (s.v0, s.v1, s.v2, s.v3))
    ∧ (∀ (n : Nat) (s : State), c_rounds n s = compress^[n] s)
    ∧ (∀ (n : Nat) (s : State), d_rounds n s = compress^[n] s)
    ∧ Sip13Rounds.C_ROUNDS = 1 ∧ Sip13Rounds.D_ROUNDS = 3
    ∧ Sip24Rounds.C_ROUNDS = 2 ∧ Sip24Rounds.D_ROUNDS = 4 :=
  ⟨fun _ => rfl, c_rounds_eq_iterate, d_rounds_eq_iterate, rfl, rfl, rfl, rfl⟩

/-- Claim C6: a freshly constructed engine carries the keyed initial state of
the SipHash key schedule and empty counters. -/
theorem C6_key_schedule (k0 k1 : Nat) :
    (Hasher.new_with_keys k0 k1).state.v0 = k0 ^^^ 0x736f6d6570736575
    ∧ (Hasher.new_with_keys k0 k1).state.v1 = k1 ^^^ 0x646f72616e646f6d
    ∧ (Hasher.new_with_keys k0 k1).state.v2 = k0 ^^^ 0x6c7967656e657261
    ∧ (Hasher.new_with_keys k0 k1).state.v3 = k1 ^^^ 0x7465646279746573
    ∧ (Hasher.new_with_keys k0 k1).length = 0
    ∧ (Hasher.new_with_keys k0 k1).tail = 0
    ∧ (Hasher.new_with_keys k0 k1).ntail = 0 :=
  ⟨rfl, rfl, rfl, rfl, rfl, rfl, rfl⟩

/-- Claim C7: `finish` computes `b = ((length mod 256) << 56) ||| tail`,
absorbs `b` into a copy of the state (`v3 ^= b`, `c` rounds, `v0 ^= b`), xors
`0xff` into `v2`, applies `d` rounds and xors the four lanes (`finishSpec`
transcribes the specification's pseudocode).  It takes the engine by shared
reference and is modelled as a pure function, so it never alters the engine —
in the operation semantics a `finish` call leaves the state unchanged, and a
second `finish` necessarily returns the same digest. -/
theorem C7_finish_formula (c d : Nat) (h : Hasher) :
    h.finish c d = finishSpec c d h ∧ runOp c h Op.finishOp = h := by
  constructor
  · have hb : mask64 h.length &&& 0xff = h.length % 256 := by
      rw [and_ff, mask64, M64]
      exact Nat.mod_mod_of_dvd h.length (by norm_num)
    simp only [Hasher.finish, finishSpec, hb]
  · rfl

theorem C7_witness :
    (Hasher.new_with_keys 3 9).finish 2 4 = finishSpec 2 4 (Hasher.new_with_keys 3 9)
    ∧ runOp 2 (Hasher.new_with_keys 3 9) Op.finishOp = Hasher.new_with_keys 3 9 :=
  C7_finish_formula 2 4 (Hasher.new_with_keys 3 9)


/-- Claim C8: for every key pair, every prior valid write history, and every
in-range value, a typed write (`write_u8`, `write_u16`, `write_u32`,
`write_u64`, `write_usize`) followed by `finish` yields the same digest as
`write` of the value's little-endian bytes followed by `finish` (this model is
the little-endian host; on big-endian hosts the typed writers byte-swap first,
so the digest is the same on any host). -/
theorem C8_typed_write_equivalence (c d k0 k1 : Nat) (ops : List Op)
    (hv : ∀ op ∈ ops, op.valid = true)
    (x1 x2 x4 x8 xu : Nat) (h1 : x1 < 2 ^ 8) (h2 : x2 < 2 ^ 16) (h4 : x4 < 2 ^ 32)
    (h8 : x8 < 2 ^ 64) (hu : xu < 2 ^ 64) :
    ((runOps c (Hasher.new_with_keys k0 k1) ops).write_u8 c x1).finish c d
        = ((runOps c (Hasher.new_with_keys k0 k1) ops).write c (leBytes 1 x1)).finish c d
    ∧ ((runOps c (Hasher.new_with_keys k0 k1) ops).write_u16 c x2).finish c d
        = ((runOps c (Hasher.new_with_keys k0 k1) ops).write c (leBytes 2 x2)).finish c d
    ∧ ((runOps c (Hasher.new_with_keys k0 k1) ops).write_u32 c x4).finish c d
        = ((runOps c (Hasher.new_with_keys k0 k1) ops).write c (leBytes 4 x4)).finish c d
    ∧ ((runOps c (Hasher.new_with_keys k0 k1) ops).write_u64 c x8).finish c d
        = ((runOps c (Hasher.new_with_keys k0 k1) ops).write c (leBytes 8 x8)).finish c d
    ∧ ((runOps c (Hasher.new_with_keys k0 k1) ops).write_usize c xu).finish c d
        = ((runOps c (Hasher.new_with_keys k0 k1) ops).write c (leBytes 8 xu)).finish c d := by
  rw [runOps_new c k0 k1 ops hv]
  have hnt := canonical_ntail_le c k0 k1 (opsBytes ops)
  have htl := canonical_tail_lt c k0 k1 (opsBytes ops) (isBytes_opsBytes hv)
  refine ⟨?_, ?_, ?_, ?_, ?_⟩
  · rw [Hasher.write_u8, short_write_eq_write c 1 x1 _ hnt htl (by omega) (by omega) h1]
  · rw [Hasher.write_u16, short_write_eq_write c 2 x2 _ hnt htl (by omega) (by omega) h2]
  · rw [Hasher.write_u32, short_write_eq_write c 4 x4 _ hnt htl (by omega) (by omega) h4]
  · rw [Hasher.write_u64, short_write_eq_write c 8 x8 _ hnt htl (by omega) (by omega) h8]
  · rw [Hasher.write_usize, short_write_eq_write c 8 xu _ hnt htl (by omega) (by omega) hu]

theorem C8_witness :
    (∀ op ∈ [Op.write [7, 8, 9]], Op.valid op = true)
    ∧ ((runOps 2 (Hasher.new_with_keys 1 2) [Op.write [7, 8, 9]]).write_u32 2
          0xDDCCBBAA).finish 2 4
        = ((runOps 2 (Hasher.new_with_keys 1 2) [Op.write [7, 8, 9]]).write 2
            (leBytes 4 0xDDCCBBAA)).finish 2 4 :=
  ⟨by decide,
    (C8_typed_write_equivalence 2 4 1 2 [Op.write [7, 8, 9]] (by decide)
      0 0 0xDDCCBBAA 0 0 (by decide) (by decide) (by decide) (by decide) (by decide)).2.2.1⟩

/-- Claim C9 counterexample: `hash` continues from the hasher's current
engine state, so for a hasher that has already absorbed input it differs from
a fresh engine keyed with the same keys: after `write_u8 0`, hashing the empty
slice gives the digest of the stream `[0]`, not of the empty stream. -/
theorem C9_counterexample :
    ¬ (SipHasher24.hash ((Hasher.new_with_keys 0 0).write_u8 2 0) []
        = ((Hasher.new_with_keys (((Hasher.new_with_keys 0 0).write_u8 2 0).k0)
              (((Hasher.new_with_keys 0 0).write_u8 2 0).k1)).write 2 []).finish 2 4) := by
  decide

/-- Claim C9 (amended): for every hasher value that is still in its freshly
constructed state (as produced by `new`/`new_with_keys`/`new_with_key`), the
one-shot `hash(bytes)` returns the same digest as keying a fresh engine with
its keys, writing `bytes` and finishing — for all three wrappers.  For a
hasher that has already absorbed data, `hash` instead continues from the
current engine state. -/
theorem C9_hash_fresh (k0 k1 : Nat) (bytes : List Nat) (h : Hasher)
    (hfresh : h = Hasher.new_with_keys k0 k1) :
    SipHasher24.hash h bytes
        = ((Hasher.new_with_keys h.k0 h.k1).write 2 bytes).finish 2 4
    ∧ SipHasher13.hash h bytes
        = ((Hasher.new_with_keys h.k0 h.k1).write 1 bytes).finish 1 3
    ∧ SipHasher.hash h bytes
        = ((Hasher.new_with_keys h.k0 h.k1).write 2 bytes).finish 2 4 := by
  subst hfresh
  exact ⟨rfl, rfl, rfl⟩

theorem C9_witness :
    Hasher.new_with_keys 11 12 = Hasher.new_with_keys 11 12
    ∧ SipHasher24.hash (Hasher.new_with_keys 11 12) [1, 2, 3]
        = ((Hasher.new_with_keys (Hasher.new_with_keys 11 12).k0
              (Hasher.new_with_keys 11 12).k1).write 2 [1, 2, 3]).finish 2 4 :=
  ⟨rfl, (C9_hash_fresh 11 12 [1, 2, 3] _ rfl).1⟩

/-- Claim C10: on every engine state satisfying the reachable-state invariants
(`ntail ≤ 7`, the bits of `tail` from position `ntail * 8` up are zero, and the
`usize` byte counter in range), writing the empty slice leaves every field of
the engine unchanged. -/
theorem C10_empty_write (c : Nat) (h : Hasher) (hnt : h.ntail ≤ 7)
    (htl : h.tail < 2 ^ (8 * h.ntail)) (hlen : h.length < 2 ^ 64) :
    h.write c [] = h := by
  cases h with
  | mk k0 k1 length state tail ntail =>
    simp only at hnt htl hlen
    have hlen' : length < 18446744073709551616 := by omega
    by_cases h0 : ntail = 0
    · subst h0
      have ht0 : tail = 0 := by simpa using htl
      subst ht0
      rw [write_eq_of_ntail_zero c _ [] rfl rfl]
      simp [absorbBlocks, leVal, mask64, M64, Nat.mod_eq_of_lt hlen']
    · rw [write_eq_short c _ [] (by simpa using h0) (by simp; omega)]
      simp [u8to64_le, mask64, M64, Nat.mod_eq_of_lt hlen']

theorem C10_witness :
    ((Hasher.new_with_keys 7 8).write_u8 2 3).ntail ≤ 7
    ∧ ((Hasher.new_with_keys 7 8).write_u8 2 3).tail
        < 2 ^ (8 * ((Hasher.new_with_keys 7 8).write_u8 2 3).ntail)
    ∧ ((Hasher.new_with_keys 7 8).write_u8 2 3).length < 2 ^ 64
    ∧ ((Hasher.new_with_keys 7 8).write_u8 2 3).write 2 []
        = (Hasher.new_with_keys 7 8).write_u8 2 3 :=
  ⟨by decide, by decide, by decide, C10_empty_write 2 _ (by decide) (by decide) (by decide)⟩

end SipHash
